import Mathlib

/-!
# Verification of the `compute_cc` ambient-noise cross-correlation pipeline

A shallow embedding of the signal-processing core of `compute_cc.py`:
stream conditioning (`process_raw`), time alignment (`nearest_step`),
windowing, spectral whitening (`whiten`) and the frequency-domain
correlation engine (`correlate`), together with theorems settling the
specification claims about them.

Numeric conventions: Python/NumPy floats are modelled as `ℚ` where the code
only does index/bookkeeping arithmetic, and as `ℝ`/`ℂ` where transcendental
functions (FFT, phases, tapers) appear.  Trace sample data is modelled over
`ℤ` where only comparisons with zero matter.  Fallible Python code (raised
exceptions) is modelled with `Except`.
-/

/-- Error kinds raised by the pipeline (`ValueError`s and NumPy errors in
the Python source). -/
inductive PipeError where
  | tooManyTraces
  | emptyStream
  | invalidTimeRange
  | noCorrelatedData
  | axisError
  | broadcastError
  | indexError
deriving DecidableEq, Repr

/-! ## Stream Conditioner: `process_raw` checks (claims C4, C5) -/

/-- The trace-count guard at the top of `process_raw`:
`if len(st) > 100: raise ValueError('Too many traces in Stream')`.
A trace is modelled by its sample data (`List ℤ`). -/
def tooManyCheck (st : List (List ℤ)) : Except PipeError (List (List ℤ)) :=
  if st.length > 100 then Except.error PipeError.tooManyTraces else Except.ok st

/-- `tr.data.max()` of NumPy: the maximum sample of a trace
(`none` on an empty trace, where NumPy would raise). -/
def trMax (tr : List ℤ) : Option ℤ :=
  tr.maximum

/-- The zero-trace filtering loop of `process_raw`:

```
for tr in st:
    if tr.data.max() == 0:
        st.remove(tr)
```

obspy `Stream.__iter__` returns an iterator over a *copy* of the trace
list, so removal inside the loop does not disturb the iteration: every
trace of the original stream is visited in order (`pending`), and
`st.remove` deletes the first element equal to `tr` from the current
stream. -/
def zeroFilterLoop (pending st : List (List ℤ)) : List (List ℤ) :=
  match pending with
  | [] => st
  | tr :: rest =>
    zeroFilterLoop rest (if trMax tr = some 0 then st.erase tr else st)

/-- The zero-trace filtering stage of `process_raw` (lines 239–241). -/
def zeroTraceFilter (st : List (List ℤ)) : List (List ℤ) :=
  zeroFilterLoop st st

/-- The `EmptyStream` guard after zero-trace filtering
(`if len(st) == 0: raise ValueError('No traces in Stream')`). -/
def emptyCheck (st : List (List ℤ)) : Except PipeError (List (List ℤ)) :=
  if st.length = 0 then Except.error PipeError.emptyStream else Except.ok st

/-- The claim's notion for C4: the maximum *absolute* sample value of a
trace. -/
def maxAbsAmplitude (tr : List ℤ) : Option ℕ :=
  (tr.map Int.natAbs).maximum

/-! ## Time Alignment: `nearest_step` (claim C6)

Timestamps are modelled as rational seconds since the POSIX epoch (obspy
`UTCDateTime` is POSIX time with sub-second precision; calendar days are
exact 86400-second blocks from the epoch). -/

/-- `np.argmin`: index of the first occurrence of the minimum of a list
(`0` on the empty list, where NumPy raises). -/
def npArgmin : List ℚ → ℕ
  | [] => 0
  | [_] => 0
  | x :: y :: ys =>
    if x ≤ (y :: ys).getD (npArgmin (y :: ys)) 0 then 0
    else npArgmin (y :: ys) + 1

/-- Midnight of a timestamp's own calendar day:
`obspy.UTCDateTime(t.year, t.month, t.day)`. -/
def midnightOf (t : ℚ) : ℚ := 86400 * (⌊t / 86400⌋ : ℤ)

/-- The length of Python `range(0, stop, step)` for `stop, step > 0`:
the number of multiples of `step` strictly below `stop`. -/
def pyRangeLen (stop step : ℕ) : ℕ :=
  if stop = 0 then 0 else (stop - 1) / step + 1

/-- The candidate tick grid of `nearest_step`:
`[start + s for s in range(0, 86400 + step, step)]` where `start` is the
timestamp's own midnight. -/
def gridTicks (t : ℚ) (step : ℕ) : List ℚ :=
  (List.range (pyRangeLen (86400 + step) step)).map fun k =>
    midnightOf t + ((k * step : ℕ) : ℚ)

/-- Snapping of one timestamp inside `nearest_step`: build the day grid,
take the absolute differences, and pick the tick at `np.argmin`. -/
def snapToGrid (t : ℚ) (step : ℕ) : ℚ :=
  (gridTicks t step).getD
    (npArgmin ((gridTicks t step).map fun x => |x - t|)) 0

/-- `nearest_step(t1, t2, step)`: returns both timestamps unchanged when
they are equal, and otherwise snaps each one independently onto its own
day grid. -/
def nearest_step (t1 t2 : ℚ) (step : ℕ) : ℚ × ℚ :=
  if t1 = t2 then (t1, t2) else (snapToGrid t1 step, snapToGrid t2 step)

/-- The absolute-difference list scanned by `np.argmin` in `nearest_step`. -/
def snapDiffs (t : ℚ) (step : ℕ) : List ℚ :=
  (gridTicks t step).map fun x => |x - t|

/-! ## Windower: window bounds and the EmptyStream guard (claim C7)

`main` lines 82–89 build the window `(start, end)` arrays and keep the
windows that end on or before the common end time; lines 112–113 raise
`EmptyStream` when either station's slice list is empty. -/

/-- `np.arange(0, stop, step)` over `ℚ` for positive `step`: the multiples
of `step` that are strictly below `stop`. -/
def npArange (stop step : ℚ) : List ℚ :=
  (List.range (Int.toNat ⌈stop / step⌉)).map fun (k : ℕ) => (k : ℚ) * step

/-- The window bookkeeping of `main`:

```
t_len = np.arange(0, t2 - t1 - cc_len + step, step)
t_start = np.array([t1 + t for t in t_len])
t_end = np.array([t1 + t + cc_len for t in t_len])
t_ind = np.where(t_end <= t2)[0]
t_start = t_start[t_ind]; t_end = t_end[t_ind]
```

as a list of `(start, end)` pairs. -/
def windowBounds (t1 t2 cc_len step : ℚ) : List (ℚ × ℚ) :=
  ((npArange (t2 - t1 - cc_len + step) step).map
    fun t => (t1 + t, t1 + t + cc_len)).filter fun w => w.2 ≤ t2

/-- Modelled from the spec: the number of frames obspy `Stream.slide`
(an external collaborator of `main`, §4.3) yields on a stream spanning
`[t1, t2]` — one frame per start `t1 + k*step` with
`t1 + k*step + cc_len ≤ t2`, none when the span is shorter than one
window. -/
def slideWindowCount (t1 t2 cc_len step : ℚ) : ℕ :=
  if t2 - t1 < cc_len then 0 else (⌊(t2 - t1 - cc_len) / step⌋).toNat + 1

/-- `main` lines 112–113: raise `EmptyStream` when either station produced
no frames. -/
def sliceEmptyCheck (nSource nReceiver : ℕ) : Except PipeError Unit :=
  if nSource = 0 ∨ nReceiver = 0 then Except.error PipeError.emptyStream
  else Except.ok ()

/-! ## Windower: mismatched-start removal (claim C8)

`main` lines 115–125.  A sliced frame is modelled by its start timestamp
(`ℚ`); obspy `Stream.remove` is Python `list.remove`, deleting the first
element equal to the given one. -/

/-- The scan building `to_remove`:

```
for ii in range(len(source_slice)):
    t1 = source_slice[ii].stats.starttime
    t2 = receiver_slice[ii].stats.starttime
    if t1 != t2: to_remove.append(ii)
```

`receiver_slice[ii]` raises `IndexError` when the receiver list is
shorter. -/
def mismatchLoop (s r : List ℚ) (ii : ℕ) (acc : List ℕ) :
    Except PipeError (List ℕ) :=
  if h : ii < s.length then
    match r[ii]? with
    | some b =>
      mismatchLoop s r (ii + 1) (if s.get ⟨ii, h⟩ ≠ b then acc ++ [ii] else acc)
    | none => Except.error PipeError.indexError
  else Except.ok acc
termination_by s.length - ii

/-- The removal pass over `to_remove[::-1]`:

```
for ii in to_remove[::-1]:
    source_slice.remove(source_slice[ii])
    receiver_slice.remove(receiver_slice[ii])
```

indexing the *current* (already shortened) lists each iteration. -/
def removeAtIdxs (s r : List ℚ) (idxs : List ℕ) :
    Except PipeError (List ℚ × List ℚ) :=
  match idxs with
  | [] => Except.ok (s, r)
  | ii :: rest =>
    match s[ii]?, r[ii]? with
    | some a, some b => removeAtIdxs (s.erase a) (r.erase b) rest
    | _, _ => Except.error PipeError.indexError

/-- The whole mismatched-start removal step of `main` (lines 115–125). -/
def removeMismatched (s r : List ℚ) : Except PipeError (List ℚ × List ℚ) :=
  match mismatchLoop s r 0 [] with
  | Except.error e => Except.error e
  | Except.ok to_remove => removeAtIdxs s r to_remove.reverse

/-- The indices at which the two start-time lists disagree (what
`to_remove` holds when no access is out of range). -/
def badIdx (s r : List ℚ) : List ℕ :=
  (List.range s.length).filter fun j => decide (s.getD j 0 ≠ r.getD j 0)

/-- The frames whose start times match pairwise — what the removal step is
meant to keep. -/
def matchedPairs (s r : List ℚ) : List ℚ :=
  ((s.zip r).filter fun p => decide (p.1 = p.2)).map Prod.fst

/-! ## Correlation Engine: `correlate` (claims C2, C3, C10)

NumPy arrays of spectra are modelled by their shape plus an entry function;
a 1-D / 2-D array distinction mirrors the `fft1.ndim` dispatch. -/

/-- A 1-D complex spectrum. -/
structure Vec1 where
  cols : ℕ
  entry : ℕ → ℂ

/-- A 2-D complex spectral frame matrix. -/
structure Mat2 where
  rows : ℕ
  cols : ℕ
  entry : ℕ → ℕ → ℂ

/-- A complex ndarray of rank 1 or 2, as dispatched on by `correlate` and
`whiten`. -/
inductive NDArr where
  | one : Vec1 → NDArr
  | two : Mat2 → NDArr

/-- A real 1-D array (output of `np.real(scipy.fftpack.ifft(...))`). -/
structure RVec1 where
  cols : ℕ
  entry : ℕ → ℝ

/-- A real 2-D array. -/
structure RMat2 where
  rows : ℕ
  cols : ℕ
  entry : ℕ → ℕ → ℝ

/-- A real ndarray of rank 1 or 2. -/
inductive RArr where
  | one : RVec1 → RArr
  | two : RMat2 → RArr

/-- The length along the lag axis of a `correlate` result. -/
def rarrCols : RArr → ℕ
  | RArr.one v => v.cols
  | RArr.two m => m.cols

/-- The correlation method selector of `correlate`. -/
inductive CCMethod where
  | cross_correlation
  | deconv
  | coherence
deriving DecidableEq, Repr

/-- `np.round` on a rational: round half to even (banker's rounding). -/
def npRound (q : ℚ) : ℤ :=
  if q - ⌊q⌋ < 1 / 2 then ⌊q⌋
  else if 1 / 2 < q - ⌊q⌋ then ⌊q⌋ + 1
  else if Even ⌊q⌋ then ⌊q⌋ else ⌊q⌋ + 1

/-- 5-smooth numbers: the sizes scipy FFTPACK transforms fast. -/
def fiveSmooth (m : ℕ) : Bool :=
  (List.range (m + 1)).any fun a =>
    (List.range (m + 1)).any fun b =>
      (List.range (m + 1)).any fun c => m == 2 ^ a * 3 ^ b * 5 ^ c

/-- `scipy.fftpack.helper.next_fast_len`: the smallest 5-smooth size at
least `n` (a power of two at least `n` always exists, so the search below
is well defined). -/
def nextFastLen (n : ℕ) : ℕ :=
  Nat.find (p := fun m => n ≤ m ∧ fiveSmooth m = true)
    (by
      refine ⟨2 ^ n, Nat.le_of_lt (Nat.lt_two_pow n), ?_⟩
      unfold fiveSmooth
      rw [List.any_eq_true]
      refine ⟨n, List.mem_range.mpr
        (Nat.lt_succ_of_le (Nat.le_of_lt (Nat.lt_two_pow n))), ?_⟩
      rw [List.any_eq_true]
      refine ⟨0, List.mem_range.mpr (Nat.succ_pos _), ?_⟩
      rw [List.any_eq_true]
      refine ⟨0, List.mem_range.mpr (Nat.succ_pos _), ?_⟩
      simp)

/-- Modelled from the spec: `noise.smooth` (the `noise` module is not under
`src/`) — a boxcar moving average with half-window `hw` bins over a row of
length `n`, clipped at the row edges. -/
noncomputable def smooth (v : ℕ → ℝ) (n hw : ℕ) (k : ℕ) : ℝ :=
  (∑ j ∈ Finset.Ico (k - hw) (min n (k + hw + 1)), v j) /
    ((min n (k + hw + 1)) - (k - hw) : ℕ)

/-- `np.mean` over one row of length `n` (axis 1 of a 2-D array). -/
noncomputable def rowMean (v : ℕ → ℝ) (n : ℕ) : ℝ :=
  (∑ j ∈ Finset.range n, v j) / n

/-- The denominator of the `deconv` branch of `correlate` (lines 427–428):
the smoothed squared magnitude of the *second* spectrum plus `0.01` times
the per-row mean smoothed magnitude of the *first* spectrum. -/
noncomputable def deconvDivisor (fft1 fft2 : Mat2) (i k : ℕ) : ℝ :=
  smooth (fun j => Complex.abs (fft2.entry i j)) fft2.cols 20 k ^ 2 +
    0.01 * rowMean
      (fun j => smooth (fun j2 => Complex.abs (fft1.entry i j2)) fft1.cols 20 j)
      fft1.cols

/-- The spectrum the `deconv` branch hands to the inverse transform:
`corr = fft1 * conj(fft2)` divided elementwise by `deconvDivisor`. -/
noncomputable def deconvCorr (fft1 fft2 : Mat2) (i k : ℕ) : ℂ :=
  fft1.entry i k * (starRingEnd ℂ) (fft2.entry i k) /
    (deconvDivisor fft1 fft2 i k : ℝ)

/-- One of the two denominators of the `coherence` branch (built from the
spectrum `f`): smoothed magnitude plus `0.01` times its per-row mean. -/
noncomputable def coherenceDivisor (f : Mat2) (i k : ℕ) : ℝ :=
  smooth (fun j => Complex.abs (f.entry i j)) f.cols 20 k +
    0.01 * rowMean
      (fun j => smooth (fun j2 => Complex.abs (f.entry i j2)) f.cols 20 j)
      f.cols

/-- The spectrum the `coherence` branch hands to the inverse transform. -/
noncomputable def coherenceCorr (fft1 fft2 : Mat2) (i k : ℕ) : ℂ :=
  fft1.entry i k * (starRingEnd ℂ) (fft2.entry i k) /
    (coherenceDivisor fft1 i k : ℝ) / (coherenceDivisor fft2 i k : ℝ)

/-- The real part of `scipy.fftpack.ifft(c, Nfft)` at time index `t` for a
row `c` of `Nt` entries (zero-padded or truncated to `Nfft`). -/
noncomputable def idftRe (c : ℕ → ℂ) (Nt Nfft : ℕ) (t : ℕ) : ℝ :=
  ((1 / (Nfft : ℂ)) * ∑ k ∈ Finset.range Nfft,
    (if k < Nt then c k else 0) *
      Complex.exp (2 * Real.pi * Complex.I * k * t / Nfft)).re

/-- The zero-lag-centering of `correlate`:
`np.concatenate((corr[..., -Nt//2 + 1:], corr[..., :Nt//2 + 1]))` applied to
a row of the `Nfft`-point inverse transform.  (For `Nt ≥ 2`; Python's
negative slice index degenerates differently for `Nt ≤ 1`, which the
pipeline never produces.) -/
noncomputable def centerRow (row : ℕ → ℝ) (Nt Nfft : ℕ) : ℕ → ℝ :=
  fun j =>
    if j < (Nt + 1) / 2 - 1 then row (Nfft - ((Nt + 1) / 2 - 1) + j)
    else row (j - ((Nt + 1) / 2 - 1))

/-- The lag selection of `correlate`:
`tcorr = np.arange(-Nt//2 + 1, Nt//2); ind = np.where(np.abs(tcorr) <= maxlag)[0]`.
Positions `j` index `tcorr`, whose value at `j` is `j + (1 - ⌈Nt/2⌉)`. -/
def lagIndices (Nt : ℕ) (m : ℤ) : List ℕ :=
  (List.range (Nt - 1)).filter fun j =>
    decide (|(j : ℤ) + (1 - (((Nt + 1) / 2 : ℕ) : ℤ))| ≤ m)

/-- The tail of `correlate` on the 2-D path: inverse transform, real part,
re-centering, and truncation of each row to the selected lag indices. -/
noncomputable def correlate2DTail (corr0 : ℕ → ℕ → ℂ) (rows Nt Nfft : ℕ)
    (m : ℤ) : RMat2 :=
  ⟨rows, (lagIndices Nt m).length, fun i j =>
    centerRow (fun t => idftRe (corr0 i) Nt Nfft t) Nt Nfft
      ((lagIndices Nt m).getD j 0)⟩

/-- The tail of `correlate` on the 1-D path. -/
noncomputable def correlate1DTail (corr0 : ℕ → ℂ) (Nt Nfft : ℕ) (m : ℤ) :
    RVec1 :=
  ⟨(lagIndices Nt m).length, fun j =>
    centerRow (fun t => idftRe corr0 Nt Nfft t) Nt Nfft
      ((lagIndices Nt m).getD j 0)⟩

/-- `correlate(fft1, fft2, maxlag, Nfft=None, method)`: dispatches on the
rank of `fft1`, multiplies the first spectrum by the conjugate of the
second, applies the method's smoothed-magnitude division, inverse
transforms, re-centers around zero lag and truncates to the requested lag.
On 1-D input with `deconv` or `coherence`, the regularization term
`np.mean(..., axis=1)` raises `AxisError` (axis 1 does not exist for a 1-D
array).  Mismatched shapes raise a NumPy broadcast error at
`fft1 * np.conj(fft2)` (mixed 1-D/2-D rank, unused by the pipeline, is
likewise reported as a broadcast error here). -/
noncomputable def correlate (fft1 fft2 : NDArr) (maxlag : ℚ)
    (NfftO : Option ℕ) (method : CCMethod) : Except PipeError RArr :=
  match fft1, fft2 with
  | NDArr.one v1, NDArr.one v2 =>
    if v1.cols ≠ v2.cols then Except.error PipeError.broadcastError
    else
      match method with
      | CCMethod.deconv => Except.error PipeError.axisError
      | CCMethod.coherence => Except.error PipeError.axisError
      | CCMethod.cross_correlation =>
        Except.ok (RArr.one (correlate1DTail
          (fun k => v1.entry k * (starRingEnd ℂ) (v2.entry k))
          v1.cols (NfftO.getD (nextFastLen v1.cols)) (npRound maxlag)))
  | NDArr.two m1, NDArr.two m2 =>
    if m1.rows ≠ m2.rows ∨ m1.cols ≠ m2.cols then
      Except.error PipeError.broadcastError
    else
      Except.ok (RArr.two (correlate2DTail
        (match method with
         | CCMethod.cross_correlation =>
           fun i k => m1.entry i k * (starRingEnd ℂ) (m2.entry i k)
         | CCMethod.deconv => deconvCorr m1 m2
         | CCMethod.coherence => coherenceCorr m1 m2)
        m1.rows m1.cols (NfftO.getD (nextFastLen m1.cols)) (npRound maxlag)))
  | _, _ => Except.error PipeError.broadcastError

/-- The `deconv` divisor as the spec's sentence words it: regularized by
`0.01` times the *second* spectrum's per-row mean smoothed magnitude (for
comparison with `deconvDivisor`, which the code computes from the first
spectrum). -/
noncomputable def specDeconvDivisor (fft2 : Mat2) (i k : ℕ) : ℝ :=
  smooth (fun j => Complex.abs (fft2.entry i j)) fft2.cols 20 k ^ 2 +
    0.01 * rowMean
      (fun j => smooth (fun j2 => Complex.abs (fft2.entry i j2)) fft2.cols 20 j)
      fft2.cols

/-! ## Spectral Whitener: `whiten` on 2-D input (claim C1)

The `axis = 1` branch of `whiten` (lines 476–516): transform each row,
shape the positive-frequency band, then assign the negative-frequency half
from `FFTRawSign[:,1:(Nfft//2)].conjugate()[::-1]`. -/

/-- Row of `scipy.fftpack.fft(data, Nfft, axis=1)`: the `Nfft`-point DFT of
a row of `Nt` samples (zero-padded or truncated to `Nfft`). -/
noncomputable def dftRow (x : ℕ → ℝ) (Nt Nfft : ℕ) (k : ℕ) : ℂ :=
  ∑ n ∈ Finset.range Nfft, (if n < Nt then (x n : ℂ) else 0) *
    Complex.exp (-(2 * Real.pi * Complex.I) * n * k / Nfft)

/-- `np.exp(1j * np.angle(z))`: the unit-modulus phase factor of `z`
(`np.angle(0) = 0`, so zero maps to `1`). -/
noncomputable def unitPhase (z : ℂ) : ℂ :=
  Complex.exp (Complex.I * z.arg)

/-- `np.linspace(a, b, num)[j]`: `num` evenly spaced points from `a` to `b`
inclusive (a single-point grid holds just `a`). -/
noncomputable def npLinspace (a b : ℝ) (num : ℕ) (j : ℕ) : ℝ :=
  if num ≤ 1 then a else a + j * (b - a) / ((num : ℝ) - 1)

/-- The passband bin set `J` of `whiten`:
`freqVec = scipy.fftpack.fftfreq(Nfft, d=delta)[:Nfft // 2]` (bin `k` has
frequency `k/(Nfft*delta)`), filtered to `[freqmin, freqmax]`. -/
def whitenJ (Nfft : ℕ) (delta freqmin freqmax : ℚ) : Finset ℕ :=
  (Finset.range (Nfft / 2)).filter fun k =>
    freqmin ≤ (k : ℚ) / (Nfft * delta) ∧ (k : ℚ) / (Nfft * delta) ≤ freqmax

/-- The band shaping of `whiten` (2-D branch, lines 502–513): zero below
`low`, raised-cosine ramp with preserved phase on `[low, left)`, unit
magnitude with preserved phase on `[left, right)`, mirrored ramp on
`[right, high)`, zero at and above `high`. -/
noncomputable def whitenShape (F : ℕ → ℕ → ℂ) (low left right high : ℕ)
    (i k : ℕ) : ℂ :=
  if k < low then 0
  else if k < left then
    ((Real.cos (npLinspace (Real.pi / 2) Real.pi (left - low) (k - low)) ^ 2 : ℝ) : ℂ) *
      unitPhase (F i k)
  else if k < right then unitPhase (F i k)
  else if k < high then
    ((Real.cos (npLinspace 0 (Real.pi / 2) (high - right) (k - right)) ^ 2 : ℝ) : ℂ) *
      unitPhase (F i k)
  else 0

/-- The negative-frequency assignment of the 2-D branch (line 516):
`FFTRawSign[:,-(Nfft//2)+1:] = FFTRawSign[:,1:(Nfft//2)].conjugate()[::-1]`.
Columns `Nfft - Nfft//2 + 1 … Nfft - 1` receive the conjugated positive
columns `1 … Nfft//2 - 1` *in unreversed column order*, and `[::-1]`
reverses the first axis of the 2-D slice, i.e. the *rows*. -/
noncomputable def whitenMirror (S : ℕ → ℕ → ℂ) (Nrows Nfft : ℕ)
    (i k : ℕ) : ℂ :=
  if Nfft - Nfft / 2 + 1 ≤ k ∧ k < Nfft then
    (starRingEnd ℂ) (S (Nrows - 1 - i) (k - (Nfft - Nfft / 2)))
  else S i k

/-- `whiten(data, delta, freqmin, freqmax, to_whiten, Nfft=None)` on a 2-D
`Nrows × Nt` frame matrix (the `axis = 1` branch; the 1-D branch differs
only in indexing).  Returns `none` where Python would raise an
`IndexError` reading `J[0]` of an empty passband. -/
noncomputable def whiten2D (data : ℕ → ℕ → ℝ) (Nrows Nt : ℕ)
    (delta freqmin freqmax : ℚ) (to_whiten : Bool) (NfftO : Option ℕ) :
    Option (ℕ → ℕ → ℂ) :=
  let Nfft := NfftO.getD (nextFastLen Nt)
  let F : ℕ → ℕ → ℂ := fun i k => dftRow (data i) Nt Nfft k
  if to_whiten then
    let J := whitenJ Nfft delta freqmin freqmax
    if hJ : J.Nonempty then
      let left := J.min' hJ
      let right := J.max' hJ
      let low := if left ≤ 100 then 1 else left - 100
      let high := if (Nfft : ℚ) / 2 < ((right + 100 : ℕ) : ℚ) then Nfft / 2
        else right + 100
      some (whitenMirror (whitenShape F low left right high) Nrows Nfft)
    else none
  else some F

/-- The concrete 2 × 4 real frame matrix refuting row-wise Hermitian
symmetry of `whiten`: row 0 is `[1, 0, 0, 0]`, row 1 is `[0, 1, 0, 0]`. -/
noncomputable def dataC1 : ℕ → ℕ → ℝ := fun i n =>
  if i = 0 ∧ n = 0 then 1 else if i = 1 ∧ n = 1 then 1 else 0

/-! ## Stream Conditioner: the iterative gap-repair loop (claim C9)

`process_raw` lines 252–267.  The helper `noise.getGaps` and the obspy trace
merge are code of this repository / its collaborators that is not under
`src/`, so they are modelled from the spec. -/

/-- A trace for the gap-repair stage, reduced to its time span. -/
structure GapTrace where
  tstart : ℚ
  tstop : ℚ
deriving DecidableEq, Repr, Inhabited

/-- Python `int()` applied to a rational: truncation toward zero. -/
def pyInt (q : ℚ) : ℤ :=
  if 0 ≤ q then ⌊q⌋ else -⌊-q⌋

/-- Modelled from the spec: `noise.getGaps` (the `noise` module is not under
`src/`).  Per §4.2, a gap is "detected" between two adjacent traces; each
entry carries the indices of the two adjacent traces and the gap duration in
samples (duration times the sampling rate), matching the
`gap[0]`, `gap[1]`, `gap[-1]` accesses in `process_raw`. -/
def getGaps (rate : ℚ) (st : List GapTrace) : List (ℕ × ℕ × ℚ) :=
  (List.range (st.length - 1)).filterMap fun i =>
    let a := st.getD i default
    let b := st.getD (i + 1) default
    if a.tstop < b.tstart then some (i, i + 1, (b.tstart - a.tstop) * rate)
    else none

/-- The inner `for gap in gaps` scan: the first gap whose duration in
samples, truncated with `int()`, is at most the 10-sample threshold
(`if int(gap[-1]) <= max_gap`). -/
def findFixable (gaps : List (ℕ × ℕ × ℚ)) : Option (ℕ × ℕ × ℚ) :=
  gaps.find? fun g => pyInt g.2.2 ≤ 10

/-- One repair step:
`st[gap[0]] = st[gap[0]].__add__(st[gap[1]], method=0, fill_value="interpolate")`
followed by `st.remove(st[gap[1]])`.  Modelled from the spec: the
interpolated merge of two adjacent traces spans from the first trace's start
to the second trace's end; `remove` deletes the first list element equal to
`st[gap[1]]` (obspy `Stream.remove` is Python `list.remove`). -/
def applyGapMerge (st : List GapTrace) (g : ℕ × ℕ × ℚ) : List GapTrace :=
  let merged : GapTrace := ⟨(st.getD g.1 default).tstart, (st.getD g.2.1 default).tstop⟩
  let st2 := st.set g.1 merged
  st2.erase (st2.getD g.2.1 default)

/-- The gap-repair loop of `process_raw`:

```
while noise.getGaps(st) and not only_too_long:
    too_long = 0
    gaps = noise.getGaps(st)
    for gap in gaps:
        if int(gap[-1]) <= max_gap: (merge; remove; break)
        else: too_long += 1
    if too_long == len(gaps): only_too_long = True
```

Each pass merges across the first sub-threshold gap, or — when every gap is
over the threshold (or none remains) — exits.  Totality of this definition
is the loop's termination: each merging pass strictly shrinks the stream. -/
def gapRepairLoop (rate : ℚ) (st : List GapTrace) : List GapTrace :=
  match h : findFixable (getGaps rate st) with
  | none => st
  | some g => gapRepairLoop rate (applyGapMerge st g)
termination_by st.length
decreasing_by
  have hmem : g ∈ getGaps rate st := List.mem_of_find?_eq_some h
  have hb : g.2.1 = g.1 + 1 ∧ g.1 + 1 < st.length := by
    unfold getGaps at hmem
    rcases List.mem_filterMap.mp hmem with ⟨i, hi, hf⟩
    simp only at hf
    split at hf
    · cases hf
      have := List.mem_range.mp hi
      exact ⟨rfl, by omega⟩
    · cases hf
  have hlen2 : (applyGapMerge st g).length = st.length - 1 := by
    unfold applyGapMerge
    simp only
    have hlen : (st.set g.1 ⟨(st.getD g.1 default).tstart,
        (st.getD g.2.1 default).tstop⟩).length = st.length := by
      simp
    have hj2 : g.2.1 < (st.set g.1 ⟨(st.getD g.1 default).tstart,
        (st.getD g.2.1 default).tstop⟩).length := by
      omega
    rw [List.length_erase_of_mem, hlen]
    rw [List.getD_eq_getElem _ _ hj2]
    exact List.getElem_mem _
  omega

/-! ## Theorems -/

theorem npArgmin_lt_length (l : List ℚ) (h : l ≠ []) : npArgmin l < l.length := by
  induction l with
  | nil => exact absurd rfl h
  | cons x xs ih =>
    cases xs with
    | nil => simp [npArgmin]
    | cons y ys =>
      simp only [npArgmin]
      split
      · simp
      · have := ih (by simp)
        simp only [List.length_cons] at this ⊢
        omega

theorem npArgmin_le (l : List ℚ) :
    ∀ i, i < l.length → l.getD (npArgmin l) 0 ≤ l.getD i 0 := by
  induction l with
  | nil => intro i hi; simp at hi
  | cons x xs ih =>
    cases xs with
    | nil =>
      intro i hi
      simp only [List.length_cons, List.length_nil, Nat.lt_succ_iff,
        Nat.le_zero] at hi
      subst hi
      simp [npArgmin]
    | cons y ys =>
      intro i hi
      simp only [npArgmin]
      split
      case isTrue hx =>
        match i with
        | 0 => simp
        | i + 1 =>
          simp only [List.getD_cons_zero, List.getD_cons_succ]
          refine le_trans hx (ih i ?_)
          simp only [List.length_cons] at hi ⊢
          omega
      case isFalse hx =>
        match i with
        | 0 =>
          simp only [List.getD_cons_zero, List.getD_cons_succ]
          exact le_of_lt (lt_of_not_le hx)
        | i + 1 =>
          simp only [List.getD_cons_succ]
          refine ih i ?_
          simp only [List.length_cons] at hi ⊢
          omega

theorem lt_pyRangeLen_iff {step : ℕ} (hstep : 0 < step) (k : ℕ) :
    k < pyRangeLen (86400 + step) step ↔ k * step < 86400 + step := by
  unfold pyRangeLen
  have hne : ¬(86400 + step = 0) := by omega
  simp only [hne, if_false]
  rw [Nat.lt_succ_iff, Nat.le_div_iff_mul_le hstep]
  omega

theorem gridTicks_length (t : ℚ) (step : ℕ) :
    (gridTicks t step).length = pyRangeLen (86400 + step) step := by
  simp [gridTicks]

theorem gridTicks_getD (t : ℚ) (step : ℕ) (k : ℕ)
    (hk : k < pyRangeLen (86400 + step) step) :
    (gridTicks t step).getD k 0 = midnightOf t + ((k * step : ℕ) : ℚ) := by
  rw [List.getD_eq_getElem _ _ (by simpa [gridTicks_length] using hk)]
  simp [gridTicks]

theorem sub_midnightOf_nonneg (t : ℚ) : 0 ≤ t - midnightOf t := by
  have h := Int.floor_le (t / 86400)
  unfold midnightOf
  have : (⌊t / 86400⌋ : ℚ) * 86400 ≤ t / 86400 * 86400 := by
    exact mul_le_mul_of_nonneg_right h (by norm_num)
  rw [div_mul_cancel₀] at this
  · linarith
  · norm_num

theorem sub_midnightOf_lt (t : ℚ) : t - midnightOf t < 86400 := by
  have h := Int.lt_floor_add_one (t / 86400)
  unfold midnightOf
  have : t / 86400 * 86400 < ((⌊t / 86400⌋ : ℚ) + 1) * 86400 := by
    exact mul_lt_mul_of_pos_right h (by norm_num)
  rw [div_mul_cancel₀] at this
  · linarith
  · norm_num

theorem snapDiffs_getD (t : ℚ) (step : ℕ) (k : ℕ)
    (hk : k < pyRangeLen (86400 + step) step) :
    (snapDiffs t step).getD k 0 = |midnightOf t + ((k * step : ℕ) : ℚ) - t| := by
  have hk2 : k < (gridTicks t step).length := by
    rw [gridTicks_length]; exact hk
  have hk3 : k < (snapDiffs t step).length := by
    simpa [snapDiffs] using hk2
  rw [List.getD_eq_getElem _ _ hk3]
  simp only [snapDiffs, List.getElem_map]
  have := gridTicks_getD t step k hk
  rw [List.getD_eq_getElem _ _ hk2] at this
  rw [this]

theorem snapToGrid_dist (t : ℚ) (step : ℕ) (hstep : 0 < step) :
    ∀ k, k < pyRangeLen (86400 + step) step →
      |snapToGrid t step - t| ≤ |midnightOf t + ((k * step : ℕ) : ℚ) - t| := by
  intro k hk
  have hlen : (snapDiffs t step).length = pyRangeLen (86400 + step) step := by
    simp [snapDiffs, gridTicks_length]
  have hne : snapDiffs t step ≠ [] := by
    intro hcon
    have h0 : 0 < pyRangeLen (86400 + step) step :=
      (lt_pyRangeLen_iff hstep 0).mpr (by omega)
    rw [← hlen, hcon] at h0
    simp at h0
  have hargmin := npArgmin_lt_length (snapDiffs t step) hne
  have hj : npArgmin (snapDiffs t step) < pyRangeLen (86400 + step) step := by
    rwa [hlen] at hargmin
  have hje : npArgmin ((gridTicks t step).map fun x => |x - t|) =
      npArgmin (snapDiffs t step) := rfl
  have h1 : snapToGrid t step = midnightOf t +
      ((npArgmin (snapDiffs t step) * step : ℕ) : ℚ) := by
    rw [snapToGrid, hje, gridTicks_getD _ _ _ hj]
  have h2 := npArgmin_le (snapDiffs t step) k (by rwa [hlen])
  rw [snapDiffs_getD _ _ _ hj, snapDiffs_getD _ _ _ hk] at h2
  rw [h1]
  exact h2

theorem snapToGrid_bound (t : ℚ) (step : ℕ) (hstep : 0 < step) :
    |snapToGrid t step - t| ≤ (step : ℚ) / 2 := by
  set m : ℚ := t - midnightOf t with hm
  have hm0 : 0 ≤ m := sub_midnightOf_nonneg t
  have hm1 : m < 86400 := sub_midnightOf_lt t
  set K : ℕ := (⌊m / (step : ℚ)⌋).toNat with hK
  have hstepQ : (0 : ℚ) < (step : ℚ) := by exact_mod_cast hstep
  have hKfloor : (⌊m / (step : ℚ)⌋ : ℚ) = (K : ℚ) := by
    have : 0 ≤ ⌊m / (step : ℚ)⌋ := Int.floor_nonneg.mpr (div_nonneg hm0 hstepQ.le)
    rw [hK]
    exact_mod_cast (Int.toNat_of_nonneg this).symm
  have hKle : (K : ℚ) * step ≤ m := by
    have h := Int.floor_le (m / (step : ℚ))
    rw [hKfloor] at h
    calc (K : ℚ) * step ≤ m / step * step := mul_le_mul_of_nonneg_right h hstepQ.le
    _ = m := by field_simp
  have hKlt : m < ((K : ℚ) + 1) * step := by
    have h := Int.lt_floor_add_one (m / (step : ℚ))
    rw [hKfloor] at h
    calc m = m / step * step := by field_simp
    _ < ((K : ℚ) + 1) * step := mul_lt_mul_of_pos_right h hstepQ
  have hKn : K < pyRangeLen (86400 + step) step := by
    rw [lt_pyRangeLen_iff hstep]
    have : ((K * step : ℕ) : ℚ) < ((86400 + step : ℕ) : ℚ) := by
      push_cast
      nlinarith
    exact_mod_cast this
  have hK1n : K + 1 < pyRangeLen (86400 + step) step := by
    rw [lt_pyRangeLen_iff hstep]
    have : (((K + 1) * step : ℕ) : ℚ) < ((86400 + step : ℕ) : ℚ) := by
      push_cast
      nlinarith
    exact_mod_cast this
  have hd1 := snapToGrid_dist t step hstep K hKn
  have hd2 := snapToGrid_dist t step hstep (K + 1) hK1n
  have he1 : |midnightOf t + ((K * step : ℕ) : ℚ) - t| = m - (K : ℚ) * step := by
    rw [abs_of_nonpos (by push_cast; linarith)]
    push_cast
    linarith
  have he2 : |midnightOf t + (((K + 1) * step : ℕ) : ℚ) - t| =
      ((K : ℚ) + 1) * step - m := by
    rw [abs_of_nonneg (by push_cast; linarith)]
    push_cast
    linarith
  rw [he1] at hd1
  rw [he2] at hd2
  have : 2 * |snapToGrid t step - t| ≤ (step : ℚ) := by linarith
  linarith

theorem snapToGrid_aligned (t : ℚ) (step : ℕ) (hstep : 0 < step)
    (k : ℕ) (hk : t = midnightOf t + ((k * step : ℕ) : ℚ)) :
    snapToGrid t step = t := by
  have hm1 : t - midnightOf t < 86400 := sub_midnightOf_lt t
  have hkval : ((k * step : ℕ) : ℚ) = t - midnightOf t := by linarith
  have hkn : k < pyRangeLen (86400 + step) step := by
    rw [lt_pyRangeLen_iff hstep]
    have : ((k * step : ℕ) : ℚ) < ((86400 + step : ℕ) : ℚ) := by
      rw [hkval]
      push_cast
      have : (0 : ℚ) < (step : ℚ) := by exact_mod_cast hstep
      linarith
    exact_mod_cast this
  have hd := snapToGrid_dist t step hstep k hkn
  have hzero : |midnightOf t + ((k * step : ℕ) : ℚ) - t| = 0 := by
    rw [← hk]
    simp
  rw [hzero] at hd
  have h1 : |snapToGrid t step - t| = 0 := le_antisymm hd (abs_nonneg _)
  have := abs_eq_zero.mp h1
  linarith

/-- C6: time alignment is idempotent and bounded.  If a timestamp already
lies on a multiple of `step` seconds from its own midnight, `nearest_step`
returns it unchanged; and for every input pair, each returned timestamp
differs from its input by at most `step / 2` seconds. -/
theorem C6_nearest_step_idempotent_bounded (t1 t2 : ℚ) (step : ℕ)
    (hstep : 0 < step) :
    ((∃ k : ℕ, t1 = midnightOf t1 + ((k * step : ℕ) : ℚ)) →
      (nearest_step t1 t2 step).1 = t1) ∧
    |(nearest_step t1 t2 step).1 - t1| ≤ (step : ℚ) / 2 ∧
    |(nearest_step t1 t2 step).2 - t2| ≤ (step : ℚ) / 2 := by
  have hstepQ : (0 : ℚ) ≤ (step : ℚ) / 2 := by positivity
  unfold nearest_step
  split
  case isTrue heq =>
    refine ⟨fun _ => rfl, ?_, ?_⟩ <;> simpa using hstepQ
  case isFalse hne =>
    refine ⟨?_, snapToGrid_bound t1 step hstep, snapToGrid_bound t2 step hstep⟩
    rintro ⟨k, hk⟩
    exact snapToGrid_aligned t1 step hstep k hk

/-- Witness for C6 at concrete inputs: `t1 = 90000` (25 hours past the
epoch, exactly on the 1800-second grid of its own day), `t2 = 30`,
`step = 1800`. -/
theorem C6_witness :
    0 < 1800 ∧
    (((∃ k : ℕ, (90000 : ℚ) = midnightOf 90000 + ((k * 1800 : ℕ) : ℚ)) →
      (nearest_step 90000 30 1800).1 = 90000) ∧
    |(nearest_step 90000 30 1800).1 - 90000| ≤ (1800 : ℚ) / 2 ∧
    |(nearest_step 90000 30 1800).2 - 30| ≤ (1800 : ℚ) / 2) :=
  ⟨by decide, C6_nearest_step_idempotent_bounded 90000 30 1800 (by decide)⟩

theorem range_filter_le_eq (K : ℕ) :
    ∀ n, K < n →
      (List.range n).filter (fun k => decide (k ≤ K)) = List.range (K + 1) := by
  intro n
  induction n with
  | zero => omega
  | succ n ih =>
    intro h
    rw [List.range_succ, List.filter_append]
    by_cases hK : K < n
    · rw [ih hK]
      have : ¬ (n ≤ K) := by omega
      simp [this]
    · have hKn : K = n := by omega
      subst hKn
      rw [List.range_succ]
      congr 1
      · refine List.filter_eq_self.mpr fun k hk => ?_
        have := List.mem_range.mp hk
        simpa using by omega
      · simp

/-- C7: when the aligned common span is at least one window long, the
Windower produces exactly `⌊(t2 - t1 - cc_len)/step⌋ + 1` window pairs
`(t1 + k*step, t1 + k*step + cc_len)` with ends at most `t2`; and the
pipeline raises `EmptyStream` whenever the slicer returns zero frames for
either station. -/
theorem C7_window_count (t1 t2 cc_len step : ℚ) (hstep : 0 < step)
    (hcc : cc_len ≤ t2 - t1) :
    windowBounds t1 t2 cc_len step =
      (List.range ((⌊(t2 - t1 - cc_len) / step⌋).toNat + 1)).map
        (fun (k : ℕ) => (t1 + (k : ℚ) * step, t1 + (k : ℚ) * step + cc_len)) ∧
    (windowBounds t1 t2 cc_len step).length =
      (⌊(t2 - t1 - cc_len) / step⌋).toNat + 1 ∧
    (∀ w ∈ windowBounds t1 t2 cc_len step, w.2 ≤ t2) ∧
    (∀ n m : ℕ, sliceEmptyCheck n m = Except.error PipeError.emptyStream ↔
      n = 0 ∨ m = 0) := by
  set x : ℚ := t2 - t1 - cc_len with hx
  have hx0 : 0 ≤ x := by rw [hx]; linarith
  set K : ℕ := (⌊x / step⌋).toNat with hKdef
  have hfl0 : 0 ≤ ⌊x / step⌋ := Int.floor_nonneg.mpr (div_nonneg hx0 hstep.le)
  have hKfl : (⌊x / step⌋ : ℚ) = (K : ℚ) := by
    rw [hKdef]; exact_mod_cast (Int.toNat_of_nonneg hfl0).symm
  have hpred : ∀ k : ℕ, (t1 + (k : ℚ) * step + cc_len ≤ t2 ↔ k ≤ K) := by
    intro k
    have h1 : t1 + (k : ℚ) * step + cc_len ≤ t2 ↔ (k : ℚ) * step ≤ x := by
      rw [hx]; constructor <;> intro h <;> linarith
    have h2 : (k : ℚ) * step ≤ x ↔ (k : ℚ) ≤ x / step :=
      (le_div_iff₀ hstep).symm
    have h3 : (k : ℚ) ≤ x / step ↔ ((k : ℤ) : ℚ) ≤ x / step := by norm_cast
    have h4 : ((k : ℤ) : ℚ) ≤ x / step ↔ (k : ℤ) ≤ ⌊x / step⌋ :=
      (Int.le_floor).symm
    have h5 : (k : ℤ) ≤ ⌊x / step⌋ ↔ k ≤ K := by
      rw [hKdef]
      omega
    rw [h1, h2, h3, h4, h5]
  have hmain : windowBounds t1 t2 cc_len step =
      (List.range (K + 1)).map
        (fun (k : ℕ) => (t1 + (k : ℚ) * step, t1 + (k : ℚ) * step + cc_len)) := by
    unfold windowBounds npArange
    rw [List.map_map, List.filter_map]
    have hKn : K < Int.toNat ⌈(t2 - t1 - cc_len + step) / step⌉ := by
      have hceil : (⌊x / step⌋ : ℚ) ≤ ⌈x / step⌉ := by
        exact_mod_cast Int.floor_le_ceil _
      have harg : (t2 - t1 - cc_len + step) / step = x / step + 1 := by
        rw [hx]
        field_simp
      rw [harg, Int.ceil_add_one]
      have : (K : ℤ) ≤ ⌈x / step⌉ := by
        have := Int.floor_le_ceil (x / step)
        omega
      omega
    have hcongr : List.filter
        ((fun (w : ℚ × ℚ) => decide (w.2 ≤ t2)) ∘
          ((fun t => (t1 + t, t1 + t + cc_len)) ∘ fun (k : ℕ) => (k : ℚ) * step))
        (List.range (Int.toNat ⌈(t2 - t1 - cc_len + step) / step⌉)) =
        List.filter (fun k => decide (k ≤ K))
        (List.range (Int.toNat ⌈(t2 - t1 - cc_len + step) / step⌉)) := by
      refine List.filter_congr fun k _ => ?_
      simp only [Function.comp_apply, decide_eq_decide]
      exact hpred k
    rw [hcongr, range_filter_le_eq K _ hKn]
    simp [Function.comp]
  refine ⟨hmain, ?_, ?_, ?_⟩
  · rw [hmain]; simp
  · intro w hw
    rw [hmain] at hw
    rcases List.mem_map.mp hw with ⟨k, hk, hkw⟩
    have := List.mem_range.mp hk
    rw [← hkw]
    exact (hpred k).mpr (by omega)
  · intro n m
    unfold sliceEmptyCheck
    split
    case isTrue h => simpa using h
    case isFalse h => simpa using h

/-- Witness for C7 at concrete inputs: span `[0, 7200]`, `cc_len = 3600`,
`step = 1800` — three windows. -/
theorem C7_witness :
    (0 : ℚ) < 1800 ∧ (3600 : ℚ) ≤ 7200 - 0 ∧
    (windowBounds 0 7200 3600 1800).length =
      (⌊((7200 : ℚ) - 0 - 3600) / 1800⌋).toNat + 1 :=
  ⟨by norm_num, by norm_num,
    (C7_window_count 0 7200 3600 1800 (by norm_num) (by norm_num)).2.1⟩

theorem mismatchLoop_eq (s r : List ℚ) (hlen : s.length ≤ r.length) :
    ∀ n ii acc, s.length - ii = n →
      mismatchLoop s r ii acc = Except.ok
        (acc ++ (List.range' ii (s.length - ii)).filter
          (fun j => decide (s.getD j 0 ≠ r.getD j 0))) := by
  intro n
  induction n with
  | zero =>
    intro ii acc hn
    have hge : ¬ ii < s.length := by omega
    rw [mismatchLoop, dif_neg hge, hn]
    simp
  | succ n ih =>
    intro ii acc hn
    have hlt : ii < s.length := by omega
    have hltr : ii < r.length := by omega
    rw [mismatchLoop, dif_pos hlt, List.getElem?_eq_getElem hltr]
    simp only
    rw [ih (ii + 1) _ (by omega), hn]
    rw [List.range'_succ]
    have hsub : s.length - (ii + 1) = n := by omega
    rw [hsub]
    have hget : s.get ⟨ii, hlt⟩ = s.getD ii 0 := by
      rw [List.getD_eq_getElem _ _ hlt]
      rfl
    have hgetr : r[ii] = r.getD ii 0 := by
      rw [List.getD_eq_getElem _ _ hltr]
    by_cases hne : s.getD ii 0 ≠ r.getD ii 0
    · rw [if_pos (by rw [hget, hgetr]; exact hne), List.filter_cons_of_pos (by simpa using hne)]
      simp
    · rw [if_neg (by rw [hget, hgetr]; exact hne), List.filter_cons_of_neg (by simpa using hne)]

theorem mem_badIdx {s r : List ℚ} {j : ℕ} :
    j ∈ badIdx s r ↔ j < s.length ∧ s.getD j 0 ≠ r.getD j 0 := by
  simp [badIdx, List.mem_filter]

theorem badIdx_sorted (s r : List ℚ) : (badIdx s r).Sorted (· < ·) :=
  (List.sorted_lt_range s.length).sublist (List.filter_sublist _)

theorem matchedPairs_self (s : List ℚ) : matchedPairs s s = s := by
  induction s with
  | nil => rfl
  | cons a l ih =>
    unfold matchedPairs at ih ⊢
    rw [List.zip_cons_cons, List.filter_cons_of_pos (by simp), List.map_cons, ih]

theorem zip_eraseIdx (b : ℕ) :
    ∀ s r : List ℚ, (s.eraseIdx b).zip (r.eraseIdx b) = (s.zip r).eraseIdx b := by
  induction b with
  | zero =>
    intro s r
    cases s with
    | nil => simp
    | cons a s1 =>
      cases r with
      | nil => simp
      | cons c r1 => simp
  | succ n ih =>
    intro s r
    cases s with
    | nil => simp
    | cons a s1 =>
      cases r with
      | nil => simp
      | cons c r1 =>
        simp only [List.eraseIdx_cons_succ, List.zip_cons_cons]
        rw [ih s1 r1]

theorem filter_eraseIdx_of_neg {l : List (ℚ × ℚ)} {b : ℕ}
    (hb : b < l.length)
    (hp : ¬ (decide (l[b].1 = l[b].2) = true)) :
    (l.eraseIdx b).filter (fun p => decide (p.1 = p.2)) =
      l.filter (fun p => decide (p.1 = p.2)) := by
  conv_rhs => rw [← List.take_append_drop b l]
  rw [List.eraseIdx_eq_take_drop_succ, List.filter_append, List.filter_append,
    List.drop_eq_getElem_cons hb]
  congr 1
  exact (List.filter_cons_of_neg (p := fun q : ℚ × ℚ => decide (q.1 = q.2))
    (a := l[b]) (l := List.drop (b + 1) l) hp).symm

theorem getD_eraseIdx_lt {l : List ℚ} {b j : ℕ} (hb : b < l.length)
    (hj : j < b) : (l.eraseIdx b).getD j 0 = l.getD j 0 := by
  have hj1 : j < (l.eraseIdx b).length := by
    rw [List.length_eraseIdx_of_lt hb]
    omega
  have hj2 : j < l.length := by omega
  rw [List.getD_eq_getElem _ _ hj1, List.getD_eq_getElem _ _ hj2]
  exact List.getElem_eraseIdx_of_lt l b j hj1 hj

theorem getD_eraseIdx_ge {l : List ℚ} {b j : ℕ} (hb : b < l.length)
    (hj : b ≤ j) (hj2 : j < l.length - 1) :
    (l.eraseIdx b).getD j 0 = l.getD (j + 1) 0 := by
  have hj1 : j < (l.eraseIdx b).length := by
    rw [List.length_eraseIdx_of_lt hb]
    omega
  have hj3 : j + 1 < l.length := by omega
  rw [List.getD_eq_getElem _ _ hj1, List.getD_eq_getElem _ _ hj3]
  exact List.getElem_eraseIdx_of_ge l b j hj1 hj

theorem removeAtIdxs_of_badIdx_nil {s r : List ℚ} (hlen : s.length = r.length)
    (hB : badIdx s r = []) :
    removeAtIdxs s r (badIdx s r).reverse =
      Except.ok (matchedPairs s r, matchedPairs s r) := by
  have hsr : s = r := by
    apply List.ext_getElem hlen
    intro i h1 h2
    by_contra hne
    have hmem : i ∈ badIdx s r := mem_badIdx.mpr ⟨h1, by
      rw [List.getD_eq_getElem _ _ h1, List.getD_eq_getElem _ _ h2]
      exact hne⟩
    rw [hB] at hmem
    exact absurd hmem (List.not_mem_nil i)
  subst hsr
  rw [hB]
  simp [removeAtIdxs, matchedPairs_self]

theorem removeAtIdxs_badIdx (N : ℕ) :
    ∀ s r : List ℚ, (badIdx s r).length ≤ N → s.length = r.length →
      s.Nodup → r.Nodup →
      removeAtIdxs s r (badIdx s r).reverse =
        Except.ok (matchedPairs s r, matchedPairs s r) := by
  induction N with
  | zero =>
    intro s r hN hlen _ _
    exact removeAtIdxs_of_badIdx_nil hlen
      (List.length_eq_zero.mp (le_antisymm hN (Nat.zero_le _)))
  | succ N ih =>
    intro s r hN hlen hs hr
    by_cases hB : badIdx s r = []
    · exact removeAtIdxs_of_badIdx_nil hlen hB
    · set B := badIdx s r with hBdef
      set b := B.getLast hB with hbdef
      have hsplit : B.dropLast ++ [b] = B := List.dropLast_append_getLast hB
      have hbmem : b ∈ B := List.getLast_mem hB
      have hblt : b < s.length := (mem_badIdx.mp hbmem).1
      have hbltr : b < r.length := hlen ▸ hblt
      have hbne : s.getD b 0 ≠ r.getD b 0 := (mem_badIdx.mp hbmem).2
      have hsort : B.Sorted (· < ·) := badIdx_sorted s r
      have hlt_b : ∀ j ∈ B.dropLast, j < b := by
        rw [← hsplit] at hsort
        have hpa := (List.pairwise_append.mp hsort).2.2
        intro j hj
        exact hpa j hj b (List.mem_singleton_self b)
      have hle_b : ∀ j ∈ B, j ≤ b := by
        intro j hj
        rw [← hsplit] at hj
        rcases List.mem_append.mp hj with h | h
        · exact le_of_lt (hlt_b j h)
        · simp only [List.mem_singleton] at h
          omega
      have hrev : B.reverse = b :: B.dropLast.reverse := by
        rw [← hsplit, List.reverse_append]
        simp
      have hslen : s.length - 1 = (s.eraseIdx b).length := by
        rw [List.length_eraseIdx_of_lt hblt]
      have hrlen : r.length - 1 = (r.eraseIdx b).length := by
        rw [List.length_eraseIdx_of_lt hbltr]
      have hmem_iff : ∀ j, j ∈ badIdx (s.eraseIdx b) (r.eraseIdx b) ↔
          j ∈ B.dropLast := by
        intro j
        rw [mem_badIdx]
        constructor
        · rintro ⟨hjlen, hjne⟩
          rw [← hslen] at hjlen
          by_cases hjb : j < b
          · have h1 := getD_eraseIdx_lt hblt hjb
            have h2 := getD_eraseIdx_lt hbltr hjb
            have hjB : j ∈ B := mem_badIdx.mpr ⟨by omega, by
              rw [← h1, ← h2]; exact hjne⟩
            rw [← hsplit] at hjB
            rcases List.mem_append.mp hjB with h | h
            · exact h
            · exfalso
              simp only [List.mem_singleton] at h
              omega
          · exfalso
            have hjlen2 : j < r.length - 1 := by omega
            have hble : b ≤ j := by omega
            have h1 := getD_eraseIdx_ge hblt hble hjlen
            have h2 := getD_eraseIdx_ge hbltr hble hjlen2
            apply hjne
            rw [h1, h2]
            by_contra hcon
            have hjB : j + 1 ∈ B := mem_badIdx.mpr ⟨by omega, hcon⟩
            have := hle_b _ hjB
            omega
        · intro hjD
          have hjb := hlt_b j hjD
          have hjB : j ∈ B := by
            rw [← hsplit]
            exact List.mem_append_left _ hjD
          have hj := mem_badIdx.mp hjB
          refine ⟨?_, ?_⟩
          · rw [← hslen]
            omega
          · rw [getD_eraseIdx_lt hblt hjb, getD_eraseIdx_lt hbltr hjb]
            exact hj.2
      have hD_eq : badIdx (s.eraseIdx b) (r.eraseIdx b) = B.dropLast := by
        have h1 : (badIdx (s.eraseIdx b) (r.eraseIdx b)).Sorted (· < ·) :=
          badIdx_sorted _ _
        have h2 : (B.dropLast).Sorted (· < ·) :=
          hsort.sublist (List.dropLast_sublist B)
        have hperm := List.perm_of_nodup_nodup_toFinset_eq h1.nodup h2.nodup
          (by
            ext j
            simp only [List.mem_toFinset]
            exact hmem_iff j)
        exact List.eq_of_perm_of_sorted hperm h1 h2
      have hmatched : matchedPairs (s.eraseIdx b) (r.eraseIdx b) =
          matchedPairs s r := by
        unfold matchedPairs
        rw [zip_eraseIdx b s r]
        congr 1
        have hbz : b < (s.zip r).length := by
          rw [List.length_zip]
          omega
        refine filter_eraseIdx_of_neg hbz ?_
        rw [List.getElem_zip]
        simp only [decide_eq_true_eq]
        intro hcon
        apply hbne
        rw [List.getD_eq_getElem _ _ hblt, List.getD_eq_getElem _ _ hbltr]
        exact hcon
      rw [hrev]
      have hstep : removeAtIdxs s r (b :: B.dropLast.reverse) =
          removeAtIdxs (s.eraseIdx b) (r.eraseIdx b) B.dropLast.reverse := by
        rw [removeAtIdxs, List.getElem?_eq_getElem hblt,
          List.getElem?_eq_getElem hbltr]
        simp only
        rw [hs.erase_getElem b hblt, hr.erase_getElem b hbltr]
      rw [hstep, ← hD_eq, ← hmatched]
      refine ih (s.eraseIdx b) (r.eraseIdx b) ?_ ?_ ?_ ?_
      · rw [hD_eq]
        have hBlen : 0 < B.length := List.length_pos.mpr hB
        have := List.length_dropLast B
        omega
      · rw [← hslen, ← hrlen]
        omega
      · exact List.Nodup.sublist (List.eraseIdx_sublist s b) hs
      · exact List.Nodup.sublist (List.eraseIdx_sublist r b) hr

/-- C8: on frame sequences of equal length whose start times are distinct
within each stream (as produced by slicing a trimmed stream with a positive
step), the mismatched-start removal of `main` never goes out of range and
returns the two streams reduced to the positions where the start times
agree — equal row counts, pairwise-equal start timestamps. -/
theorem C8_mismatch_removal (s r : List ℚ) (hlen : s.length = r.length)
    (hs : s.Nodup) (hr : r.Nodup) :
    removeMismatched s r = Except.ok (matchedPairs s r, matchedPairs s r) := by
  unfold removeMismatched
  rw [mismatchLoop_eq s r (le_of_eq hlen) s.length 0 [] (by omega)]
  simp only [Nat.sub_zero, List.nil_append, ← List.range_eq_range']
  exact removeAtIdxs_badIdx (badIdx s r).length s r le_rfl hlen hs hr

/-- Witness for C8 at concrete inputs: starts `[0, 1800, 3600]` against
`[0, 1900, 3600]` — the middle frame is dropped from both sides. -/
theorem C8_witness :
    ([0, 1800, 3600] : List ℚ).length = ([0, 1900, 3600] : List ℚ).length ∧
    ([0, 1800, 3600] : List ℚ).Nodup ∧ ([0, 1900, 3600] : List ℚ).Nodup ∧
    removeMismatched [0, 1800, 3600] [0, 1900, 3600] =
      Except.ok (matchedPairs [0, 1800, 3600] [0, 1900, 3600],
        matchedPairs [0, 1800, 3600] [0, 1900, 3600]) :=
  ⟨by decide, by decide, by decide,
    C8_mismatch_removal _ _ (by decide) (by decide) (by decide)⟩

theorem length_filter_range_le (lo : ℕ) :
    ∀ n, ((List.range n).filter fun j => decide (lo ≤ j)).length = n - lo := by
  intro n
  induction n with
  | zero => simp
  | succ n ih =>
    rw [List.range_succ, List.filter_append, List.length_append, ih]
    by_cases h : lo ≤ n
    · simp only [List.filter_cons, decide_eq_true_eq, h, if_true,
        List.filter_nil, List.length_cons, List.length_nil]
      omega
    · simp only [List.filter_cons, decide_eq_true_eq, h, if_false,
        List.filter_nil, List.length_nil]
      omega

theorem length_filter_range_interval (lo hi : ℕ) :
    ∀ n, hi < n →
      ((List.range n).filter fun j => decide (lo ≤ j ∧ j ≤ hi)).length =
        hi + 1 - lo := by
  intro n
  induction n with
  | zero => omega
  | succ n ih =>
    intro hn
    rw [List.range_succ, List.filter_append, List.length_append]
    by_cases hh : hi < n
    · rw [ih hh]
      have hno : ¬(lo ≤ n ∧ n ≤ hi) := by omega
      simp only [List.filter_cons, decide_eq_true_eq, hno, if_false,
        List.filter_nil, List.length_nil]
      omega
    · have hhi : hi = n := by omega
      rw [hhi]
      have hcongr : (List.range n).filter (fun j => decide (lo ≤ j ∧ j ≤ n)) =
          (List.range n).filter (fun j => decide (lo ≤ j)) := by
        refine List.filter_congr fun j hj => ?_
        have := List.mem_range.mp hj
        simp only [decide_eq_decide]
        omega
      rw [hcongr, length_filter_range_le]
      by_cases h : lo ≤ n
      · simp only [List.filter_cons, decide_eq_true_eq, h, le_refl,
          and_true, if_true, List.filter_nil, List.length_cons,
          List.length_nil]
        omega
      · have hno : ¬(lo ≤ n ∧ n ≤ n) := by omega
        simp only [List.filter_cons, decide_eq_true_eq, hno, if_false,
          List.filter_nil, List.length_nil]
        omega

theorem lagIndices_length (Nt : ℕ) (m : ℤ) (hNt : 2 ≤ Nt) (hm : 0 ≤ m) :
    (lagIndices Nt m).length =
      min m.toNat (Nt / 2 - 1) + min m.toNat ((Nt + 1) / 2 - 1) + 1 := by
  set A : ℕ := (Nt + 1) / 2 - 1 with hA
  set lo : ℕ := A - m.toNat with hlo
  set hi : ℕ := min (A + m.toNat) (Nt - 2) with hhi
  have hcongr : lagIndices Nt m =
      (List.range (Nt - 1)).filter fun j => decide (lo ≤ j ∧ j ≤ hi) := by
    unfold lagIndices
    refine List.filter_congr fun j hj => ?_
    have hjr := List.mem_range.mp hj
    simp only [decide_eq_decide]
    rw [abs_le]
    omega
  rw [hcongr, length_filter_range_interval lo hi (Nt - 1) (by omega)]
  omega

/-- C2 (amended): for 2-D spectra of matching shape with at least two
frequency bins, the lag-axis row length of the `correlate` output is
`min(m, ⌊Nt/2⌋-1) + min(m, ⌈Nt/2⌉-1) + 1`, where `m = np.round(maxlag)`
(round half to even, not floor) and `Nt` is the input column count — i.e.
`2m+1` when `m ≤ ⌊Nt/2⌋-1`, and capped near `Nt-1` otherwise. -/
theorem C2_row_length (f1 f2 : Mat2) (maxlag : ℚ) (NfftO : Option ℕ)
    (method : CCMethod) (hrows : f1.rows = f2.rows)
    (hcols : f1.cols = f2.cols) (hNt : 2 ≤ f1.cols)
    (hm : 0 ≤ npRound maxlag) :
    Except.map rarrCols
        (correlate (NDArr.two f1) (NDArr.two f2) maxlag NfftO method) =
      Except.ok (min (npRound maxlag).toNat (f1.cols / 2 - 1) +
        min (npRound maxlag).toNat ((f1.cols + 1) / 2 - 1) + 1) := by
  simp only [correlate]
  rw [if_neg (by simp [hrows, hcols])]
  simp only [Except.map, correlate2DTail, rarrCols]
  rw [lagIndices_length f1.cols (npRound maxlag) hNt hm]

/-- Witness for C2 at concrete inputs: two constant `2 × 8` spectra,
`maxlag = 2`, `method = deconv` — five lag samples. -/
theorem C2_witness :
    (⟨2, 8, fun _ _ => 1⟩ : Mat2).rows = (⟨2, 8, fun _ _ => 1⟩ : Mat2).rows ∧
    (⟨2, 8, fun _ _ => 1⟩ : Mat2).cols = (⟨2, 8, fun _ _ => 1⟩ : Mat2).cols ∧
    2 ≤ (⟨2, 8, fun _ _ => 1⟩ : Mat2).cols ∧ 0 ≤ npRound 2 ∧
    Except.map rarrCols
        (correlate (NDArr.two ⟨2, 8, fun _ _ => 1⟩)
          (NDArr.two ⟨2, 8, fun _ _ => 1⟩) 2 none CCMethod.deconv) =
      Except.ok (min (npRound 2).toNat ((⟨2, 8, fun _ _ => (1 : ℂ)⟩ : Mat2).cols / 2 - 1) +
        min (npRound 2).toNat (((⟨2, 8, fun _ _ => (1 : ℂ)⟩ : Mat2).cols + 1) / 2 - 1) + 1) :=
  ⟨rfl, rfl, by norm_num, by norm_num [npRound],
    C2_row_length ⟨2, 8, fun _ _ => 1⟩ ⟨2, 8, fun _ _ => 1⟩ 2 none
      CCMethod.deconv rfl rfl (by norm_num) (by norm_num [npRound])⟩

/-- C2 (counterexample): at `maxlag = 7.5` on a `1 × 6` spectrum the output
row length is `5`: `np.round(7.5) = 8` (not `⌊7.5⌋ = 7`) and the lag range
is capped by the `Nt - 1` available lags, while the claim's formula
`2*floor(maxlag)+1` gives `15`. -/
theorem C2_counterexample :
    Except.map rarrCols
        (correlate (NDArr.two ⟨1, 6, fun _ _ => 1⟩)
          (NDArr.two ⟨1, 6, fun _ _ => 1⟩) (15 / 2) none
          CCMethod.cross_correlation) = Except.ok 5 ∧
    2 * ⌊(15 / 2 : ℚ)⌋ + 1 = 15 ∧ (5 : ℤ) ≠ 15 := by
  refine ⟨?_, by norm_num, by norm_num⟩
  have h8 : npRound (15 / 2 : ℚ) = 8 := by
    norm_num [npRound]
    exact ⟨3, by norm_num⟩
  have hlen : (lagIndices 6 8).length = 5 := by decide
  simp only [correlate]
  rw [if_neg (by simp)]
  simp only [Except.map, correlate2DTail, rarrCols]
  rw [h8, hlen]

theorem smooth_of_const (c : ℝ) (n hw k : ℕ) (hk : k < n) :
    smooth (fun _ => c) n hw k = c := by
  unfold smooth
  rw [Finset.sum_const, Nat.card_Ico, nsmul_eq_mul]
  have hcard : ((min n (k + hw + 1) - (k - hw) : ℕ) : ℝ) ≠ 0 := by
    have h0 : 0 < min n (k + hw + 1) - (k - hw) := by omega
    positivity
  field_simp

theorem rowMean_const (c : ℝ) (n : ℕ) (hn : 0 < n) :
    rowMean (fun _ => c) n = c := by
  unfold rowMean
  rw [Finset.sum_const, Finset.card_range, nsmul_eq_mul]
  have hcard : (n : ℝ) ≠ 0 := by positivity
  field_simp

/-- C3 (counterexample): with `fft1` constant `2` and `fft2` constant `1`
on a `1 × 4` grid, the code's deconv spectrum at bin `(0,0)` is
`2 / (1 + 0.01·2) = 200/102` — the regularizer uses the *first* spectrum's
mean smoothed magnitude — while the claim's divisor gives
`2 / (1 + 0.01·1) = 200/101`. -/
theorem C3_counterexample :
    deconvCorr ⟨1, 4, fun _ _ => 2⟩ ⟨1, 4, fun _ _ => 1⟩ 0 0 =
      ((200 / 102 : ℝ) : ℂ) ∧
    (⟨1, 4, fun _ _ => 2⟩ : Mat2).entry 0 0 *
        (starRingEnd ℂ) ((⟨1, 4, fun _ _ => 1⟩ : Mat2).entry 0 0) /
        ((specDeconvDivisor ⟨1, 4, fun _ _ => 1⟩ 0 0 : ℝ) : ℂ) =
      ((200 / 101 : ℝ) : ℂ) ∧
    ((200 / 102 : ℝ) : ℂ) ≠ ((200 / 101 : ℝ) : ℂ) := by
  have habs1 : (fun j => Complex.abs ((⟨1, 4, fun _ _ => 1⟩ : Mat2).entry 0 j)) =
      fun _ => (1 : ℝ) := by
    funext j
    simp
  have habs2 : (fun j => Complex.abs ((⟨1, 4, fun _ _ => 2⟩ : Mat2).entry 0 j)) =
      fun _ => (2 : ℝ) := by
    funext j
    simp
  have hsm1 : ∀ k < 4, smooth (fun j =>
      Complex.abs ((⟨1, 4, fun _ _ => 1⟩ : Mat2).entry 0 j)) 4 20 k = 1 := by
    intro k hk
    rw [habs1]
    exact smooth_of_const 1 4 20 k hk
  have hsm2 : ∀ k < 4, smooth (fun j =>
      Complex.abs ((⟨1, 4, fun _ _ => 2⟩ : Mat2).entry 0 j)) 4 20 k = 2 := by
    intro k hk
    rw [habs2]
    exact smooth_of_const 2 4 20 k hk
  have hmean2 : rowMean (fun j => smooth (fun j2 =>
      Complex.abs ((⟨1, 4, fun _ _ => 2⟩ : Mat2).entry 0 j2)) 4 20 j) 4 = 2 := by
    unfold rowMean
    rw [Finset.sum_congr rfl fun j hj => hsm2 j (Finset.mem_range.mp hj)]
    rw [Finset.sum_const, Finset.card_range, nsmul_eq_mul]
    norm_num
  have hmean1 : rowMean (fun j => smooth (fun j2 =>
      Complex.abs ((⟨1, 4, fun _ _ => 1⟩ : Mat2).entry 0 j2)) 4 20 j) 4 = 1 := by
    unfold rowMean
    rw [Finset.sum_congr rfl fun j hj => hsm1 j (Finset.mem_range.mp hj)]
    rw [Finset.sum_const, Finset.card_range, nsmul_eq_mul]
    norm_num
  have hdiv : deconvDivisor ⟨1, 4, fun _ _ => 2⟩ ⟨1, 4, fun _ _ => 1⟩ 0 0 =
      102 / 100 := by
    unfold deconvDivisor
    simp only
    rw [hsm1 0 (by norm_num), hmean2]
    norm_num
  have hspec : specDeconvDivisor ⟨1, 4, fun _ _ => 1⟩ 0 0 = 101 / 100 := by
    unfold specDeconvDivisor
    simp only
    rw [hsm1 0 (by norm_num), hmean1]
    norm_num
  refine ⟨?_, ?_, ?_⟩
  · unfold deconvCorr
    rw [hdiv]
    simp only [map_one]
    push_cast
    norm_num
  · rw [hspec]
    simp only [map_one]
    push_cast
    norm_num
  · intro hcon
    rw [Complex.ofReal_inj] at hcon
    norm_num at hcon

/-- C3 (amended): for 2-D spectra of matching shape and `method='deconv'`,
`correlate` divides `fft1 * conj(fft2)` elementwise by the smoothed
(half-window 20 bins) squared magnitude of the second spectrum plus `0.01`
times the *first* spectrum's per-row mean smoothed magnitude. -/
theorem C3_deconv_divisor_formula (f1 f2 : Mat2) (maxlag : ℚ)
    (NfftO : Option ℕ) (hrows : f1.rows = f2.rows)
    (hcols : f1.cols = f2.cols) :
    correlate (NDArr.two f1) (NDArr.two f2) maxlag NfftO CCMethod.deconv =
      Except.ok (RArr.two (correlate2DTail
        (fun i k => f1.entry i k * (starRingEnd ℂ) (f2.entry i k) /
          (((smooth (fun j => Complex.abs (f2.entry i j)) f2.cols 20 k ^ 2 +
            0.01 * ((∑ j ∈ Finset.range f1.cols,
              smooth (fun j2 => Complex.abs (f1.entry i j2)) f1.cols 20 j) /
                (f1.cols : ℝ))) : ℝ) : ℂ))
        f1.rows f1.cols (NfftO.getD (nextFastLen f1.cols))
        (npRound maxlag))) := by
  simp only [correlate]
  rw [if_neg (by simp [hrows, hcols])]
  rfl

/-- Witness for C3's amended theorem at a concrete shape. -/
theorem C3_witness :
    (⟨1, 4, fun _ _ => Complex.I⟩ : Mat2).rows =
      (⟨1, 4, fun _ _ => 3⟩ : Mat2).rows ∧
    (⟨1, 4, fun _ _ => Complex.I⟩ : Mat2).cols =
      (⟨1, 4, fun _ _ => 3⟩ : Mat2).cols ∧
    correlate (NDArr.two ⟨1, 4, fun _ _ => Complex.I⟩)
        (NDArr.two ⟨1, 4, fun _ _ => 3⟩) 1 none CCMethod.deconv =
      Except.ok (RArr.two (correlate2DTail
        (fun i k => (⟨1, 4, fun _ _ => Complex.I⟩ : Mat2).entry i k *
          (starRingEnd ℂ) ((⟨1, 4, fun _ _ => 3⟩ : Mat2).entry i k) /
          (((smooth (fun j => Complex.abs
              ((⟨1, 4, fun _ _ => (3 : ℂ)⟩ : Mat2).entry i j)) 4 20 k ^ 2 +
            0.01 * ((∑ j ∈ Finset.range 4,
              smooth (fun j2 => Complex.abs
                ((⟨1, 4, fun _ _ => Complex.I⟩ : Mat2).entry i j2)) 4 20 j) /
                ((4 : ℕ) : ℝ))) : ℝ) : ℂ))
        1 4 (nextFastLen 4) (npRound 1))) :=
  ⟨rfl, rfl, C3_deconv_divisor_formula ⟨1, 4, fun _ _ => Complex.I⟩
    ⟨1, 4, fun _ _ => 3⟩ 1 none rfl rfl⟩

/-- C10: `correlate` dispatches on input rank and accepts 1-D spectra, but
for 1-D input with `deconv` or `coherence` the regularization term
`np.mean(..., axis=1)` has no axis 1 and raises; only
`cross_correlation` completes on 1-D input. -/
theorem C10_rank_dispatch (v w : Vec1) (maxlag : ℚ) (NfftO : Option ℕ)
    (hcols : v.cols = w.cols) :
    correlate (NDArr.one v) (NDArr.one w) maxlag NfftO CCMethod.deconv =
      Except.error PipeError.axisError ∧
    correlate (NDArr.one v) (NDArr.one w) maxlag NfftO CCMethod.coherence =
      Except.error PipeError.axisError ∧
    correlate (NDArr.one v) (NDArr.one w) maxlag NfftO
        CCMethod.cross_correlation =
      Except.ok (RArr.one (correlate1DTail
        (fun k => v.entry k * (starRingEnd ℂ) (w.entry k))
        v.cols (NfftO.getD (nextFastLen v.cols)) (npRound maxlag))) := by
  simp only [correlate]
  rw [if_neg (by simp [hcols]), if_neg (by simp [hcols])]
  exact ⟨rfl, rfl, rfl⟩

/-- Witness for C10 at concrete 1-D inputs. -/
theorem C10_witness :
    (⟨4, fun _ => Complex.I⟩ : Vec1).cols = (⟨4, fun _ => 1⟩ : Vec1).cols ∧
    correlate (NDArr.one ⟨4, fun _ => Complex.I⟩)
        (NDArr.one ⟨4, fun _ => 1⟩) 1 none CCMethod.deconv =
      Except.error PipeError.axisError ∧
    correlate (NDArr.one ⟨4, fun _ => Complex.I⟩)
        (NDArr.one ⟨4, fun _ => 1⟩) 1 none CCMethod.coherence =
      Except.error PipeError.axisError ∧
    correlate (NDArr.one ⟨4, fun _ => Complex.I⟩)
        (NDArr.one ⟨4, fun _ => 1⟩) 1 none CCMethod.cross_correlation =
      Except.ok (RArr.one (correlate1DTail
        (fun k => (⟨4, fun _ => Complex.I⟩ : Vec1).entry k *
          (starRingEnd ℂ) ((⟨4, fun _ => (1 : ℂ)⟩ : Vec1).entry k))
        4 (nextFastLen 4) (npRound 1))) :=
  ⟨rfl, C10_rank_dispatch ⟨4, fun _ => Complex.I⟩ ⟨4, fun _ => 1⟩ 1 none rfl⟩

/-- C1 (code bug): the whitened 2-D spectrum is *not* row-wise
conjugate-symmetric.  On `dataC1` (`Nfft = 4`, `delta = 1`, passband
`[0.1, 0.3]`, `to_whiten = True`) row 0 has bin 1 = `1` but bin
`Nfft - 1 = 3` equals `I` — the conjugate of *row 1's* bin 1 — because the
`[::-1]` in the mirror assignment reverses the row axis of the 2-D slice
rather than the frequency bins.  Hermitian symmetry would require bin 3 to
be `conj 1 = 1`. -/
theorem C1_whiten_hermitian_bug :
    Option.map (fun W => (W 0 1, W 0 3))
        (whiten2D dataC1 2 4 1 (1 / 10) (3 / 10) true none) =
      some (1, Complex.I) ∧
    Complex.I ≠ (starRingEnd ℂ) 1 := by
  have hN : nextFastLen 4 = 4 := by
    rw [nextFastLen, Nat.find_eq_iff]
    exact ⟨⟨le_refl 4, by decide⟩, fun m hm hc => absurd hc.1 (by omega)⟩
  have hJ : whitenJ 4 1 (1 / 10) (3 / 10) = {1} := by
    unfold whitenJ
    rw [show (4 : ℕ) / 2 = 2 from rfl, Finset.range_succ, Finset.range_one,
      Finset.filter_insert, Finset.filter_singleton]
    norm_num
  have hred : whiten2D dataC1 2 4 1 (1 / 10) (3 / 10) true none =
      some (whitenMirror
        (whitenShape (fun i k => dftRow (dataC1 i) 4 4 k) 1 1 1 2) 2 4) := by
    simp only [whiten2D, Option.getD_none, hN, if_true, hJ]
    rw [dif_pos (Finset.singleton_nonempty 1)]
    simp only [Finset.min'_singleton, Finset.max'_singleton]
    norm_num
  have hF01 : dftRow (dataC1 0) 4 4 1 = 1 := by
    unfold dftRow dataC1
    rw [Finset.sum_range_succ, Finset.sum_range_succ, Finset.sum_range_succ,
      Finset.sum_range_succ, Finset.sum_range_zero]
    norm_num
  have hF11 : dftRow (dataC1 1) 4 4 1 = -Complex.I := by
    unfold dftRow dataC1
    rw [Finset.sum_range_succ, Finset.sum_range_succ, Finset.sum_range_succ,
      Finset.sum_range_succ, Finset.sum_range_zero]
    norm_num
    have harg : (-(2 * (Real.pi : ℂ) * Complex.I) / 4 : ℂ) =
        ((-(Real.pi / 2) : ℝ) : ℂ) * Complex.I := by
      push_cast
      ring
    rw [harg, Complex.exp_mul_I, ← Complex.ofReal_cos, ← Complex.ofReal_sin]
    norm_num [Real.cos_pi_div_two, Real.sin_pi_div_two]
  have hup1 : unitPhase 1 = 1 := by
    unfold unitPhase
    rw [Complex.arg_one]
    simp
  have hupnegI : unitPhase (-Complex.I) = -Complex.I := by
    unfold unitPhase
    rw [Complex.arg_neg_I, mul_comm, Complex.exp_mul_I,
      ← Complex.ofReal_cos, ← Complex.ofReal_sin]
    norm_num [Real.cos_pi_div_two, Real.sin_pi_div_two]
  have hshape : ∀ i,
      whitenShape (fun i k => dftRow (dataC1 i) 4 4 k) 1 1 1 2 i 1 =
        unitPhase (dftRow (dataC1 i) 4 4 1) := by
    intro i
    unfold whitenShape
    norm_num [npLinspace]
  have hW01 : whitenMirror
      (whitenShape (fun i k => dftRow (dataC1 i) 4 4 k) 1 1 1 2) 2 4 0 1 =
      1 := by
    unfold whitenMirror
    norm_num
    rw [hshape 0, hF01, hup1]
  have hW03 : whitenMirror
      (whitenShape (fun i k => dftRow (dataC1 i) 4 4 k) 1 1 1 2) 2 4 0 3 =
      Complex.I := by
    unfold whitenMirror
    norm_num
    rw [hshape 1, hF11, hupnegI]
    exact Complex.conj_neg_I
  refine ⟨?_, ?_⟩
  · rw [hred]
    simp only [Option.map_some']
    rw [hW01, hW03]
  · simp only [map_one]
    intro hcon
    have him := congrArg Complex.im hcon
    simp at him

/-- C4 (code bug): the zero-trace filter does not drop exactly the traces
of zero max-abs amplitude.  `tr.data.max()` is the plain maximum of the
samples, not the maximum absolute value, so on the stream
`[[-1, 0], [5]]` the code drops the trace `[-1, 0]` — whose max-abs
amplitude is `1`, not `0` — although the claim (and the code's own
comment, "check for traces with only zeros") says every trace of nonzero
max-abs amplitude survives this stage. -/
theorem C4_zero_filter_bug :
    zeroTraceFilter [[-1, 0], [5]] = [[5]] ∧
    maxAbsAmplitude [-1, 0] = some 1 ∧
    maxAbsAmplitude [5] = some 5 := by
  refine ⟨?_, by decide, by decide⟩
  decide

/-- C5 (counterexample): a stream with exactly 100 traces does *not* raise
`TooManyTraces` — the guard is `len(st) > 100`, so the claimed threshold
"at least 100" is wrong at 100. -/
theorem C5_hundred_traces_pass :
    tooManyCheck (List.replicate 100 [1]) = Except.ok (List.replicate 100 [1]) ∧
    100 ≤ (List.replicate 100 ([1] : List ℤ)).length := by
  constructor
  · simp [tooManyCheck]
  · simp

/-- C9: the iterative gap-repair loop terminates on every input stream (the
recursion above is total because every merging pass strictly decreases the
trace count), and the state it reaches has either no gaps at all or only
gaps whose sample count exceeds the 10-sample threshold, left for the
zero-fill merge. -/
theorem C9_gap_repair_reaches_fixed_state (rate : ℚ) (st : List GapTrace) :
    getGaps rate (gapRepairLoop rate st) = [] ∨
    ∀ g ∈ getGaps rate (gapRepairLoop rate st), 10 < pyInt g.2.2 := by
  induction st using gapRepairLoop.induct rate with
  | case1 st h =>
    right
    rw [gapRepairLoop, h]
    intro g hg
    have := List.find?_eq_none.mp h g hg
    simp only [decide_eq_true_eq] at this
    omega
  | case2 st g h ih =>
    rw [gapRepairLoop, h]
    exact ih

/-- C5 (amended): `process_raw` fails with `TooManyTraces` exactly when the
raw stream's trace count is at least 101 (strictly more than 100); every
stream with at most 100 traces passes the guard unchanged. -/
theorem C5_too_many_traces_iff (st : List (List ℤ)) :
    (tooManyCheck st = Except.error PipeError.tooManyTraces ↔ 101 ≤ st.length) ∧
    (tooManyCheck st = Except.ok st ↔ st.length ≤ 100) := by
  by_cases h : st.length > 100 <;>
    simp only [tooManyCheck, h, if_true, if_false, reduceIte] <;>
    constructor <;> simp <;> omega
